import Mathlib

set_option maxRecDepth 8000

/-!
Shallow embedding of the dii-operator normalization and hashing pipeline.

Strings are modelled as lists of characters (`Str`).  Each definition below
translates one function of the TypeScript source:

* `validateEmail`, `normalizeEmail`   — src/utils/email/normalize.ts
* `validatePhone`, `normalizePhone`   — src/utils/phone/normalize.ts
* `generateSha256Hash`, `generateBase64Hash`, `generateEmailHashes`
                                      — src/utils/hash/generate.ts
* `detectValueType`, `processCSV`     — src/utils/csv/process.ts
* `generatePhoneHashes`               — generatePhoneHashes in the phone hook
* `processEmail`                      — processEmail in the email hook
SHA-256 itself (called through crypto-js and node crypto in the source) is
embedded as the standard FIPS 180-4 algorithm over natural numbers.
-/

namespace DiiOp

abbrev Str := List Char

/-! ## Character classes (JavaScript regex character classes, by codepoint) -/

/-- JavaScript whitespace class used by both the regex replacements and
trimming behaviour in the source. -/
def wsProp (n : Nat) : Prop :=
  n = 32 ∨ n = 9 ∨ n = 10 ∨ n = 13 ∨ n = 11 ∨ n = 12 ∨ n = 160 ∨ n = 5760 ∨
  (8192 ≤ n ∧ n ≤ 8202) ∨ n = 8232 ∨ n = 8233 ∨ n = 8239 ∨ n = 8287 ∨
  n = 12288 ∨ n = 65279

instance (n : Nat) : Decidable (wsProp n) := by unfold wsProp; infer_instance

def isWsB (c : Char) : Bool := decide (wsProp c.toNat)

/-- Lowercasing of one character, as applied by toLowerCase on the
ASCII letters that the validated inputs contain. -/
def lowerChar (c : Char) : Char :=
  if 65 ≤ c.toNat ∧ c.toNat ≤ 90 then Char.ofNat (c.toNat + 32) else c

def isDigitB (c : Char) : Bool := decide (48 ≤ c.toNat ∧ c.toNat ≤ 57)

def isAlphaB (c : Char) : Bool :=
  decide ((65 ≤ c.toNat ∧ c.toNat ≤ 90) ∨ (97 ≤ c.toNat ∧ c.toNat ≤ 122))

/-- Character class of the email regex local part: [a-zA-Z0-9._%+-]. -/
def isLocalChar (c : Char) : Bool :=
  isAlphaB c || isDigitB c || decide (c = '.') || decide (c = '_') ||
  decide (c = '%') || decide (c = '+') || decide (c = '-')

/-- Character class of the email regex domain part: [a-zA-Z0-9.-]. -/
def isDomainChar (c : Char) : Bool :=
  isAlphaB c || isDigitB c || decide (c = '.') || decide (c = '-')

/-- Character class of the phone detection regex: [+\d\s\-()]. -/
def isPhoneDetectChar (c : Char) : Bool :=
  decide (c = '+') || isDigitB c || isWsB c || decide (c = '-') ||
  decide (c = '(') || decide (c = ')')

/-- Characters removed by the phone formatting strip [\s\-()]. -/
def isPhoneSep (c : Char) : Bool :=
  isWsB c || decide (c = '-') || decide (c = '(') || decide (c = ')')

/-! ## Basic string operations used by the source -/

/-- Removal of all whitespace, the replace of \s+ by the empty string. -/
def stripWs (l : Str) : Str := l.filter (fun c => ! isWsB c)

/-- Full-string lowercasing. -/
def lowerStr (l : Str) : Str := l.map lowerChar

/-- Trimming of leading and trailing whitespace (String.prototype.trim). -/
def trimStr (l : Str) : Str :=
  ((l.dropWhile isWsB).reverse.dropWhile isWsB).reverse

/-- Splitting at every occurrence of a separator character, exactly as
String.prototype.split: the empty string yields one empty segment. -/
def splitChar (sep : Char) : Str → List Str
  | [] => [[]]
  | c :: t =>
    if c = sep then [] :: splitChar sep t
    else
      match splitChar sep t with
      | s :: rest => (c :: s) :: rest
      | [] => [[c]]

/-! ## Email validation and normalization (src/utils/email/normalize.ts) -/

structure EmailValidationResult where
  isValid : Bool
  error : Option Str
deriving DecidableEq

/-- Match of the validation regex
/^[a-zA-Z0-9._%+-]+@[a-zA-Z0-9.-]+\.[a-zA-Z]\x7b2,\x7d$/ expressed by the
split at the single commercial at and at the last dot of the domain. -/
def emailRegexMatch (v : Str) : Bool :=
  let l := v.takeWhile (fun c => decide (c ≠ '@'))
  match v.dropWhile (fun c => decide (c ≠ '@')) with
  | [] => false
  | _ :: r =>
    let revTld := r.reverse.takeWhile (fun c => decide (c ≠ '.'))
    match r.reverse.dropWhile (fun c => decide (c ≠ '.')) with
    | [] => false
    | _ :: dRev =>
      let d := dRev.reverse
      decide (l ≠ []) && l.all isLocalChar &&
      decide (d ≠ []) && d.all isDomainChar &&
      decide (2 ≤ revTld.length) && revTld.all isAlphaB

def validateEmail (v : Str) : EmailValidationResult :=
  if v = [] then ⟨false, some "Email address is required".data⟩
  else if emailRegexMatch v then ⟨true, none⟩
  else ⟨false, some "Please enter a valid email address".data⟩

structure EmailNormalizationOptions where
  removeWhitespace : Bool
  convertToLowercase : Bool
  removeDots : Bool
  removePlusSign : Bool
deriving DecidableEq

def defaultEmailOptions : EmailNormalizationOptions := ⟨true, true, true, true⟩

/-- The split-and-reassemble phase of normalizeEmail: split at the first
commercial at (JavaScript split, so the domain is the segment between the
first and a possible second at), and when that domain is non-empty remove
the dots of the local part and truncate it at its first plus. -/
def emailStep (opts : EmailNormalizationOptions) (m : Str) : Str :=
  match m.dropWhile (fun c => decide (c ≠ '@')) with
  | [] => m
  | _ :: r =>
    if r.takeWhile (fun c => decide (c ≠ '@')) = [] then m
    else
      (if opts.removePlusSign then
        (if opts.removeDots then
          (m.takeWhile (fun c => decide (c ≠ '@'))).filter
            (fun c => decide (c ≠ '.'))
         else m.takeWhile (fun c => decide (c ≠ '@'))).takeWhile
          (fun c => decide (c ≠ '+'))
       else
        (if opts.removeDots then
          (m.takeWhile (fun c => decide (c ≠ '@'))).filter
            (fun c => decide (c ≠ '.'))
         else m.takeWhile (fun c => decide (c ≠ '@')))) ++
      '@' :: r.takeWhile (fun c => decide (c ≠ '@'))

def normalizeEmail (opts : EmailNormalizationOptions) (email : Str) : Str :=
  if email = [] then []
  else
    let n1 := if opts.removeWhitespace then stripWs email else email
    let n2 := if opts.convertToLowercase then lowerStr n1 else n1
    emailStep opts n2

/-! ## Phone validation and normalization (src/utils/phone/normalize.ts) -/

def cleanPhone (l : Str) : Str := l.filter (fun c => ! isPhoneSep c)

def dropLeadPlus : Str → Str
  | '+' :: t => t
  | l => l

/-- Australian fix-up: when the digits start with 61 followed by 0, that
single 0 is deleted. -/
def ausFix : Str → Str
  | '6' :: '1' :: '0' :: r => '6' :: '1' :: r
  | l => l

def validatePhone (phone : Str) : Bool :=
  match dropLeadPlus (cleanPhone phone) with
  | [] => false
  | c :: t =>
    decide (49 ≤ c.toNat ∧ c.toNat ≤ 57) && t.all isDigitB &&
    decide (6 ≤ t.length ∧ t.length ≤ 14)

def normalizePhone (phone : Str) : Str :=
  if phone = [] then []
  else '+' :: ausFix (dropLeadPlus (cleanPhone phone))

/-! ## SHA-256 (FIPS 180-4), as computed by crypto-js and node crypto -/

def pow2 (n : Nat) : Nat := Nat.pow 2 n

def m32 : Nat := 4294967296

/-- UTF-8 encoding of a character sequence, the byte stream both hash
libraries digest. -/
def utf8Bytes : Str → List Nat
  | [] => []
  | c :: t =>
    let n := c.toNat
    (if n < 128 then [n]
     else if n < 2048 then [192 + n / 64, 128 + n % 64]
     else if n < 65536 then [224 + n / 4096, 128 + n / 64 % 64, 128 + n % 64]
     else [240 + n / 262144, 128 + n / 4096 % 64, 128 + n / 64 % 64,
           128 + n % 64]) ++ utf8Bytes t

def rotr (n x : Nat) : Nat := (x / pow2 n + x % pow2 n * pow2 (32 - n)) % m32

def bsig0 (x : Nat) : Nat := rotr 2 x ^^^ rotr 13 x ^^^ rotr 22 x

def bsig1 (x : Nat) : Nat := rotr 6 x ^^^ rotr 11 x ^^^ rotr 25 x

def ssig0 (x : Nat) : Nat := rotr 7 x ^^^ rotr 18 x ^^^ x / 8

def ssig1 (x : Nat) : Nat := rotr 17 x ^^^ rotr 19 x ^^^ x / 1024

def chF (e f g : Nat) : Nat := (e &&& f) ^^^ ((e % m32 ^^^ 4294967295) &&& g)

def majF (a b c : Nat) : Nat := (a &&& b) ^^^ (a &&& c) ^^^ (b &&& c)

/-- The 64 SHA-256 round constants (fractional parts of the cube roots of
the first 64 primes), written in decimal. -/
def kConst : List Nat :=
  [1116352408, 1899447441, 3049323471, 3921009573,
   961987163, 1508970993, 2453635748, 2870763221,
   3624381080, 310598401, 607225278, 1426881987,
   1925078388, 2162078206, 2614888103, 3248222580,
   3835390401, 4022224774, 264347078, 604807628,
   770255983, 1249150122, 1555081692, 1996064986,
   2554220882, 2821834349, 2952996808, 3210313671,
   3336571891, 3584528711, 113926993, 338241895,
   666307205, 773529912, 1294757372, 1396182291,
   1695183700, 1986661051, 2177026350, 2456956037,
   2730485921, 2820302411, 3259730800, 3345764771,
   3516065817, 3600352804, 4094571909, 275423344,
   430227734, 506948616, 659060556, 883997877,
   958139571, 1322822218, 1537002063, 1747873779,
   1955562222, 2024104815, 2227730452, 2361852424,
   2428436474, 2756734187, 3204031479, 3329325298]

/-- Message padding: one 0x80 byte, zeros to 56 mod 64, then the bit length
on eight big-endian bytes. -/
def padMsg (msg : List Nat) : List Nat :=
  let len := msg.length
  let bits := len * 8
  msg ++ 128 :: List.replicate ((64 - (len + 9) % 64) % 64) 0 ++
    [bits / pow2 56 % 256, bits / pow2 48 % 256, bits / pow2 40 % 256,
     bits / pow2 32 % 256, bits / pow2 24 % 256, bits / pow2 16 % 256,
     bits / pow2 8 % 256, bits % 256]

def toBlocks (l : List Nat) : List (List Nat) :=
  if h : l = [] then []
  else l.take 64 :: toBlocks (l.drop 64)
termination_by l.length
decreasing_by
  simp only [List.length_drop]
  have : l.length ≠ 0 := fun h0 => h (List.eq_nil_of_length_eq_zero h0)
  omega

def wordsOfBlock : List Nat → List Nat
  | b0 :: b1 :: b2 :: b3 :: t =>
    (b0 * 16777216 + b1 * 65536 + b2 * 256 + b3) :: wordsOfBlock t
  | _ => []

/-- Message schedule W of one block. -/
def msgW (ws : List Nat) : Nat → Nat
  | i =>
    if h : i < 16 then ws.getD i 0
    else
      (ssig1 (msgW ws (i - 2)) + msgW ws (i - 7) + ssig0 (msgW ws (i - 15)) +
        msgW ws (i - 16)) % m32
termination_by i => i
decreasing_by all_goals omega

structure Hash8 where
  h0 : Nat
  h1 : Nat
  h2 : Nat
  h3 : Nat
  h4 : Nat
  h5 : Nat
  h6 : Nat
  h7 : Nat
deriving DecidableEq

/-- The initial hash value of SHA-256, in decimal. -/
def initH : Hash8 :=
  ⟨1779033703, 3144134277, 1013904242, 2773480762,
   1359893119, 2600822924, 528734635, 1541459225⟩

def roundStep (w : Nat → Nat) (st : Hash8) (i : Nat) : Hash8 :=
  let t1 := (st.h7 + bsig1 st.h4 + chF st.h4 st.h5 st.h6 +
    kConst.getD i 0 + w i) % m32
  let t2 := (bsig0 st.h0 + majF st.h0 st.h1 st.h2) % m32
  ⟨(t1 + t2) % m32, st.h0, st.h1, st.h2, (st.h3 + t1) % m32,
   st.h4, st.h5, st.h6⟩

def compressBlock (st : Hash8) (block : List Nat) : Hash8 :=
  let w := msgW (wordsOfBlock block)
  let f := (List.range 64).foldl (roundStep w) st
  ⟨(st.h0 + f.h0) % m32, (st.h1 + f.h1) % m32, (st.h2 + f.h2) % m32,
   (st.h3 + f.h3) % m32, (st.h4 + f.h4) % m32, (st.h5 + f.h5) % m32,
   (st.h6 + f.h6) % m32, (st.h7 + f.h7) % m32⟩

def wordBytes (w : Nat) : List Nat :=
  [w / 16777216 % 256, w / 65536 % 256, w / 256 % 256, w % 256]

/-- The 32 digest bytes of SHA-256 over a byte message. -/
def sha256Bytes (msg : List Nat) : List Nat :=
  let fin := (toBlocks (padMsg msg)).foldl compressBlock initH
  wordBytes fin.h0 ++ wordBytes fin.h1 ++ wordBytes fin.h2 ++
  wordBytes fin.h3 ++ wordBytes fin.h4 ++ wordBytes fin.h5 ++
  wordBytes fin.h6 ++ wordBytes fin.h7

/-! ## Hex and Base64 renderings -/

def hexDigitChar (n : Nat) : Char :=
  if n < 10 then Char.ofNat (48 + n) else Char.ofNat (87 + n)

def hexEncode : List Nat → Str
  | [] => []
  | b :: t => hexDigitChar (b / 16) :: hexDigitChar (b % 16) :: hexEncode t

def hexVal (c : Char) : Nat :=
  if 48 ≤ c.toNat ∧ c.toNat ≤ 57 then c.toNat - 48
  else if 97 ≤ c.toNat ∧ c.toNat ≤ 102 then c.toNat - 87
  else if 65 ≤ c.toNat ∧ c.toNat ≤ 70 then c.toNat - 55
  else 0

/-- Hex string to bytes, the Buffer.from hex decoding used by the phone
hook before re-encoding to Base64. -/
def hexDecode : Str → List Nat
  | c1 :: c2 :: t => (hexVal c1 * 16 + hexVal c2) :: hexDecode t
  | _ => []

def b64DigitChar (n : Nat) : Char :=
  if n < 26 then Char.ofNat (65 + n)
  else if n < 52 then Char.ofNat (71 + n)
  else if n < 62 then Char.ofNat (n - 4)
  else if n = 62 then '+'
  else '/'

/-- Standard Base64 with padding over a byte list. -/
def base64Encode : List Nat → Str
  | [] => []
  | [b1] => [b64DigitChar (b1 / 4), b64DigitChar (b1 % 4 * 16), '=', '=']
  | [b1, b2] => [b64DigitChar (b1 / 4), b64DigitChar (b1 % 4 * 16 + b2 / 16),
                 b64DigitChar (b2 % 16 * 4), '=']
  | b1 :: b2 :: b3 :: t =>
    b64DigitChar (b1 / 4) :: b64DigitChar (b1 % 4 * 16 + b2 / 16) ::
    b64DigitChar (b2 % 16 * 4 + b3 / 64) :: b64DigitChar (b3 % 64) ::
    base64Encode t

/-! ## Hash utilities (src/utils/hash/generate.ts) -/

def generateSha256Hash (value : Str) : Str :=
  if value = [] then [] else hexEncode (sha256Bytes (utf8Bytes value))

def generateBase64Hash (value : Str) : Str :=
  if value = [] then [] else base64Encode (sha256Bytes (utf8Bytes value))

structure EmailHashResult where
  normalizedEmail : Str
  sha256Hash : Str
  base64Hash : Str
deriving DecidableEq

def generateEmailHashes (normalizedEmail : Str) : EmailHashResult :=
  if normalizedEmail = [] then ⟨[], [], []⟩
  else ⟨normalizedEmail, generateSha256Hash normalizedEmail,
        generateBase64Hash normalizedEmail⟩

/-! ## Inline phone-hook hashing (generatePhoneHashes in the phone hook):
node createHash hex digest, then Buffer hex decode and Base64 encode. -/

structure PhoneHashResult where
  normalizedPhone : Str
  sha256Hash : Str
  base64Hash : Str
deriving DecidableEq

def generatePhoneHashes (normalizedPhone : Str) : PhoneHashResult :=
  ⟨normalizedPhone, hexEncode (sha256Bytes (utf8Bytes normalizedPhone)),
   base64Encode (hexDecode (hexEncode (sha256Bytes (utf8Bytes normalizedPhone))))⟩

/-! ## Batch CSV processing (src/utils/csv/process.ts) -/

structure ProcessedRow where
  original : Str
  normalized : Str
  sha256 : Str
  base64 : Str
deriving DecidableEq

structure ProcessedData where
  headers : List Str
  rows : List ProcessedRow
  skippedRows : Nat
deriving DecidableEq

inductive ValueType where
  | email
  | phone
  | unknown
deriving DecidableEq

def detectValueType (value : Str) : ValueType :=
  let trimmed := trimStr value
  if (validateEmail trimmed).isValid then ValueType.email
  else if decide (trimmed ≠ []) && trimmed.all isPhoneDetectChar then
    ValueType.phone
  else ValueType.unknown

/-- The non-blank trimmed lines of the batch input text. -/
def batchLines (text : Str) : List Str :=
  ((splitChar '\n' text).map trimStr).filter (fun l => decide (l ≠ []))

/-- Text before the first comma of a line: element 0 of the comma split. -/
def preComma (line : Str) : Str := line.takeWhile (fun c => decide (c ≠ ','))

inductive LineOutcome where
  | empty
  | skipped
  | row (r : ProcessedRow)
deriving DecidableEq

/-- The normalized value computed for one candidate value, null when the
value fails detection or email re-validation. -/
def normalizedOf (v : Str) : Option Str :=
  match detectValueType v with
  | ValueType.email =>
    if (validateEmail v).isValid then
      some (normalizeEmail defaultEmailOptions v) else none
  | ValueType.phone => some (normalizePhone v)
  | ValueType.unknown => none

/-- One iteration of the processCSV loop body over a single line. -/
def processLine (line : Str) : LineOutcome :=
  if preComma line = [] then LineOutcome.empty
  else
    match normalizedOf (preComma line) with
    | some n =>
      if n = [] then LineOutcome.skipped
      else LineOutcome.row
        ⟨preComma line, n, generateSha256Hash n, generateBase64Hash n⟩
    | none => LineOutcome.skipped

def csvStep (acc : List ProcessedRow × Nat) (line : Str) :
    List ProcessedRow × Nat :=
  match processLine line with
  | LineOutcome.empty => acc
  | LineOutcome.skipped => (acc.1, acc.2 + 1)
  | LineOutcome.row r => (acc.1 ++ [r], acc.2)

/-- The row a line contributes, when it contributes one. -/
def rowOf (line : Str) : Option ProcessedRow :=
  match processLine line with
  | LineOutcome.row r => some r
  | _ => none

/-- Whether a line is counted in skippedRows. -/
def isSkippedLine (line : Str) : Bool :=
  decide (processLine line = LineOutcome.skipped)

/-- Batch text of n lines each holding the single letter a, used as a
concrete over-the-limit input. -/
def manyLines : Nat → Str
  | 0 => []
  | n + 1 => 'a' :: '\n' :: manyLines n

def csvHeaders : List Str :=
  ["Input".data, "Normalized".data, "SHA256".data, "Base64".data]

/-- Body of the try block of processCSV: the record limit check followed by
the processing loop. -/
def processCSVTry (text : Str) : Except Str ProcessedData :=
  if (batchLines text).length > 10000 then
    Except.error "File exceeds maximum record limit of 10000".data
  else
    Except.ok ⟨csvHeaders, ((batchLines text).foldl csvStep ([], 0)).1,
      ((batchLines text).foldl csvStep ([], 0)).2⟩

/-- processCSV with its surrounding catch clause, which wraps any raised
message with the generic processing prefix. -/
def processCSV (text : Str) : Except Str ProcessedData :=
  match processCSVTry text with
  | Except.error msg =>
    Except.error ("Error processing CSV file: ".data ++ msg)
  | Except.ok d => Except.ok d

/-! ## Single-value email processor (processEmail in the email hook) -/

structure EmailProcessorState where
  email : Str
  error : Str
  result : EmailHashResult
deriving DecidableEq

def processEmail (s : EmailProcessorState) : EmailProcessorState :=
  if s.email = [] then s
  else if (validateEmail s.email).isValid then
    ⟨s.email, [],
     generateEmailHashes (normalizeEmail defaultEmailOptions s.email)⟩
  else
    ⟨s.email, (validateEmail s.email).error.getD "Invalid email address".data,
     s.result⟩

/-! # Supporting lemmas on lists -/

theorem takeWhile_of_all {α} {p : α → Bool} {l : List α}
    (h : ∀ a ∈ l, p a = true) : l.takeWhile p = l := by
  induction l with
  | nil => rfl
  | cons a t ih =>
    have ha := h a (List.mem_cons_self a t)
    simp only [List.takeWhile_cons, ha, if_true]
    rw [ih (fun b hb => h b (List.mem_cons_of_mem a hb))]

theorem dropWhile_of_all {α} {p : α → Bool} {l : List α}
    (h : ∀ a ∈ l, p a = true) : l.dropWhile p = [] := by
  induction l with
  | nil => rfl
  | cons a t ih =>
    have ha := h a (List.mem_cons_self a t)
    simp only [List.dropWhile_cons, ha, if_true]
    exact ih (fun b hb => h b (List.mem_cons_of_mem a hb))

theorem takeWhile_append_sat {α} {p : α → Bool} {xs ys : List α} {y : α}
    (hxs : ∀ a ∈ xs, p a = true) (hy : p y = false) :
    (xs ++ y :: ys).takeWhile p = xs := by
  induction xs with
  | nil => simp [List.takeWhile_cons, hy]
  | cons a t ih =>
    have ha := hxs a (List.mem_cons_self a t)
    simp only [List.cons_append, List.takeWhile_cons, ha, if_true]
    rw [ih (fun b hb => hxs b (List.mem_cons_of_mem a hb))]

theorem dropWhile_append_sat {α} {p : α → Bool} {xs ys : List α} {y : α}
    (hxs : ∀ a ∈ xs, p a = true) (hy : p y = false) :
    (xs ++ y :: ys).dropWhile p = y :: ys := by
  induction xs with
  | nil => simp [List.dropWhile_cons, hy]
  | cons a t ih =>
    have ha := hxs a (List.mem_cons_self a t)
    simp only [List.cons_append, List.dropWhile_cons, ha, if_true]
    exact ih (fun b hb => hxs b (List.mem_cons_of_mem a hb))

theorem mem_of_mem_takeWhile {α} {p : α → Bool} {l : List α} {c : α}
    (h : c ∈ l.takeWhile p) : c ∈ l := by
  induction l with
  | nil => simp at h
  | cons a t ih =>
    rw [List.takeWhile_cons] at h
    by_cases hp : p a = true
    · rw [if_pos hp] at h
      rcases List.mem_cons.mp h with rfl | h2
      · simp
      · exact List.mem_cons_of_mem a (ih h2)
    · rw [if_neg hp] at h
      simp at h

theorem pred_of_mem_takeWhile {α} {p : α → Bool} {l : List α} {c : α}
    (h : c ∈ l.takeWhile p) : p c = true := by
  induction l with
  | nil => simp at h
  | cons a t ih =>
    rw [List.takeWhile_cons] at h
    by_cases hp : p a = true
    · rw [if_pos hp] at h
      rcases List.mem_cons.mp h with rfl | h2
      · exact hp
      · exact ih h2
    · rw [if_neg hp] at h
      simp at h

theorem mem_of_mem_dropWhile {α} {p : α → Bool} {l : List α} {c : α}
    (h : c ∈ l.dropWhile p) : c ∈ l := by
  induction l with
  | nil => simp at h
  | cons a t ih =>
    rw [List.dropWhile_cons] at h
    by_cases hp : p a = true
    · rw [if_pos hp] at h
      exact List.mem_cons_of_mem a (ih h)
    · rw [if_neg hp] at h
      exact h

theorem dropWhile_head_false {α} {p : α → Bool} {l t : List α} {a : α}
    (h : l.dropWhile p = a :: t) : p a = false := by
  induction l with
  | nil => simp [List.dropWhile] at h
  | cons b u ih =>
    rw [List.dropWhile_cons] at h
    by_cases hp : p b = true
    · rw [if_pos hp] at h
      exact ih h
    · rw [if_neg hp] at h
      cases h
      simpa using hp

theorem filter_of_all {α} {p : α → Bool} {l : List α}
    (h : ∀ a ∈ l, p a = true) : l.filter p = l := by
  induction l with
  | nil => rfl
  | cons a t ih =>
    rw [List.filter_cons, if_pos (h a (List.mem_cons_self a t))]
    rw [ih (fun b hb => h b (List.mem_cons_of_mem a hb))]

theorem map_fix {α} {f : α → α} {l : List α}
    (h : ∀ a ∈ l, f a = a) : l.map f = l := by
  induction l with
  | nil => rfl
  | cons a t ih =>
    rw [List.map_cons, h a (List.mem_cons_self a t)]
    rw [ih (fun b hb => h b (List.mem_cons_of_mem a hb))]

/-! # Supporting lemmas on characters -/

theorem char_toNat_ofNat_valid {n : Nat} (h : n < 55296) :
    (Char.ofNat n).toNat = n := by
  unfold Char.ofNat
  rw [dif_pos (Or.inl h)]
  rfl

theorem lowerChar_toNat_of_upper {c : Char}
    (h : 65 ≤ c.toNat ∧ c.toNat ≤ 90) :
    (lowerChar c).toNat = c.toNat + 32 := by
  unfold lowerChar
  rw [if_pos h]
  exact char_toNat_ofNat_valid (by omega)

theorem lowerChar_eq_of_not_upper {c : Char}
    (h : ¬(65 ≤ c.toNat ∧ c.toNat ≤ 90)) : lowerChar c = c := if_neg h

theorem lowerChar_idem (c : Char) : lowerChar (lowerChar c) = lowerChar c := by
  by_cases h : 65 ≤ c.toNat ∧ c.toNat ≤ 90
  · have h2 := lowerChar_toNat_of_upper h
    exact lowerChar_eq_of_not_upper (by omega)
  · rw [lowerChar_eq_of_not_upper h, lowerChar_eq_of_not_upper h]

theorem isWsB_lowerChar (c : Char) : isWsB (lowerChar c) = isWsB c := by
  by_cases h : 65 ≤ c.toNat ∧ c.toNat ≤ 90
  · have h2 := lowerChar_toNat_of_upper h
    have hws1 : ¬ wsProp (lowerChar c).toNat := by
      rw [h2]; unfold wsProp; omega
    have hws2 : ¬ wsProp c.toNat := by unfold wsProp; omega
    simp [isWsB, hws1, hws2]
  · rw [lowerChar_eq_of_not_upper h]

/-! # The email normalizer: structure of its output and idempotence -/

theorem normalizeEmail_eq (l : Str) :
    normalizeEmail defaultEmailOptions l =
      emailStep defaultEmailOptions (lowerStr (stripWs l)) := by
  by_cases h : l = []
  · subst h; rfl
  · unfold normalizeEmail
    rw [if_neg h]
    rfl

theorem n2_fixed {l : Str} :
    ∀ c ∈ lowerStr (stripWs l), lowerChar c = c ∧ isWsB c = false := by
  intro c hc
  rcases List.mem_map.mp hc with ⟨a, ha, rfl⟩
  have hw : isWsB a = false := by
    have h2 := (List.mem_filter.mp ha).2
    simpa using h2
  exact ⟨lowerChar_idem a, by rw [isWsB_lowerChar]; exact hw⟩

theorem mem_emailStep {opts : EmailNormalizationOptions} {m : Str} {c : Char}
    (h : c ∈ emailStep opts m) : c ∈ m ∨ c = '@' := by
  unfold emailStep at h
  split at h
  · exact Or.inl h
  · rename_i r heq
    split at h
    · exact Or.inl h
    · rcases List.mem_append.mp h with h1 | h1
      · left
        have h2 : c ∈ m.takeWhile (fun c => decide (c ≠ '@')) := by
          split at h1
          · have h3 := mem_of_mem_takeWhile h1
            split at h3
            · exact (List.mem_filter.mp h3).1
            · exact h3
          · split at h1
            · exact (List.mem_filter.mp h1).1
            · exact h1
        exact mem_of_mem_takeWhile h2
      · rcases List.mem_cons.mp h1 with rfl | h2
        · exact Or.inr rfl
        · left
          have h3 : c ∈ r := mem_of_mem_takeWhile h2
          have h4 : c ∈ m.dropWhile (fun c => decide (c ≠ '@')) := by
            rw [heq]; exact List.mem_cons_of_mem _ h3
          exact mem_of_mem_dropWhile h4

theorem emailStep_default_app {a b : Str}
    (ha : ∀ c ∈ a, (fun c => decide (c ≠ '@')) c = true)
    (hb : ∀ c ∈ b, (fun c => decide (c ≠ '@')) c = true)
    (hbne : b ≠ []) :
    emailStep defaultEmailOptions (a ++ '@' :: b) =
      (a.filter (fun c => decide (c ≠ '.'))).takeWhile
        (fun c => decide (c ≠ '+')) ++ '@' :: b := by
  have hat : (fun c => decide (c ≠ '@')) '@' = false := by simp
  have hd : (a ++ '@' :: b).dropWhile (fun c => decide (c ≠ '@')) = '@' :: b :=
    dropWhile_append_sat ha hat
  have ht : (a ++ '@' :: b).takeWhile (fun c => decide (c ≠ '@')) = a :=
    takeWhile_append_sat ha hat
  have hbt : b.takeWhile (fun c => decide (c ≠ '@')) = b := takeWhile_of_all hb
  unfold emailStep
  simp only [hd, hbt]
  rw [if_neg hbne, ht]
  rfl

theorem emailStep_default_fix {a b : Str}
    (haAt : ∀ c ∈ a, decide (c ≠ '@') = true)
    (haDot : ∀ c ∈ a, decide (c ≠ '.') = true)
    (haPlus : ∀ c ∈ a, decide (c ≠ '+') = true)
    (hbAt : ∀ c ∈ b, decide (c ≠ '@') = true)
    (hbne : b ≠ []) :
    emailStep defaultEmailOptions (a ++ '@' :: b) = a ++ '@' :: b := by
  rw [emailStep_default_app haAt hbAt hbne]
  rw [filter_of_all haDot, takeWhile_of_all haPlus]

theorem emailStep_default_idem (m : Str) :
    emailStep defaultEmailOptions (emailStep defaultEmailOptions m) =
      emailStep defaultEmailOptions m := by
  cases hd : m.dropWhile (fun c => decide (c ≠ '@')) with
  | nil =>
    have h1 : emailStep defaultEmailOptions m = m := by
      unfold emailStep; simp only [hd]
    rw [h1]; exact h1
  | cons a r =>
    by_cases hdom : r.takeWhile (fun c => decide (c ≠ '@')) = []
    · have h1 : emailStep defaultEmailOptions m = m := by
        unfold emailStep; simp only [hd]; rw [if_pos hdom]
      rw [h1]; exact h1
    · have h1 : emailStep defaultEmailOptions m =
          ((m.takeWhile (fun c => decide (c ≠ '@'))).filter
            (fun c => decide (c ≠ '.'))).takeWhile
            (fun c => decide (c ≠ '+')) ++
          '@' :: r.takeWhile (fun c => decide (c ≠ '@')) := by
        unfold emailStep; simp only [hd]; rw [if_neg hdom]; rfl
      rw [h1]
      apply emailStep_default_fix
      · intro c hc
        have h9 := pred_of_mem_takeWhile
          (List.mem_filter.mp (mem_of_mem_takeWhile hc)).1
        exact h9
      · intro c hc
        have h9 := (List.mem_filter.mp (mem_of_mem_takeWhile hc)).2
        exact h9
      · intro c hc
        have h9 := pred_of_mem_takeWhile hc
        exact h9
      · intro c hc
        have h9 := pred_of_mem_takeWhile hc
        exact h9
      · exact hdom

theorem normalizeEmail_idem (l : Str) :
    normalizeEmail defaultEmailOptions (normalizeEmail defaultEmailOptions l) =
      normalizeEmail defaultEmailOptions l := by
  rw [normalizeEmail_eq l]
  have hfix : ∀ c ∈ emailStep defaultEmailOptions (lowerStr (stripWs l)),
      lowerChar c = c ∧ isWsB c = false := by
    intro c hc
    rcases mem_emailStep hc with h | rfl
    · exact n2_fixed c h
    · exact ⟨by decide, by decide⟩
  rw [normalizeEmail_eq]
  have h1 : stripWs (emailStep defaultEmailOptions (lowerStr (stripWs l))) =
      emailStep defaultEmailOptions (lowerStr (stripWs l)) :=
    filter_of_all (fun c hc => by simp [(hfix c hc).2])
  rw [h1]
  have h2 : lowerStr (emailStep defaultEmailOptions (lowerStr (stripWs l))) =
      emailStep defaultEmailOptions (lowerStr (stripWs l)) :=
    map_fix (fun c hc => (hfix c hc).1)
  rw [h2]
  exact emailStep_default_idem (lowerStr (stripWs l))

/-! # The phone normalizer: idempotence outside the 6100 corner -/

theorem ausFix_spec (d : Str) :
    (∃ r, d = '6' :: '1' :: '0' :: r ∧ ausFix d = '6' :: '1' :: r) ∨
    (ausFix d = d ∧ ∀ r, d ≠ '6' :: '1' :: '0' :: r) := by
  unfold ausFix
  split
  · rename_i r
    exact Or.inl ⟨r, rfl, rfl⟩
  · rename_i hno
    exact Or.inr ⟨rfl, fun r hr => hno r hr⟩

theorem mem_ausFix {c : Char} {d : Str} (h : c ∈ ausFix d) : c ∈ d := by
  rcases ausFix_spec d with ⟨r, hd, he⟩ | ⟨he, _⟩
  · rw [hd]
    rw [he] at h
    rcases List.mem_cons.mp h with rfl | h2
    · simp
    · rcases List.mem_cons.mp h2 with rfl | h3
      · simp
      · simp [h3]
  · rw [he] at h
    exact h

theorem mem_dropLeadPlus {c : Char} {l : Str} (h : c ∈ dropLeadPlus l) :
    c ∈ l := by
  unfold dropLeadPlus at h
  split at h
  · exact List.mem_cons_of_mem _ h
  · exact h

theorem ausFix_idem {d : Str} (h : d.take 4 ≠ '6' :: '1' :: '0' :: '0' :: []) :
    ausFix (ausFix d) = ausFix d := by
  rcases ausFix_spec d with ⟨r, hd, he⟩ | ⟨he, _⟩
  · rw [he]
    rcases ausFix_spec ('6' :: '1' :: r) with ⟨r2, hd2, he2⟩ | ⟨he2, _⟩
    · exfalso
      have hr : r = '0' :: r2 := by
        have h6 := hd2
        simp only [List.cons.injEq] at h6
        exact h6.2.2
      apply h
      rw [hd, hr]
      rfl
    · exact he2
  · rw [he, he]

theorem normalizePhone_idem {l : Str}
    (h : (dropLeadPlus (cleanPhone l)).take 4 ≠
      '6' :: '1' :: '0' :: '0' :: []) :
    normalizePhone (normalizePhone l) = normalizePhone l := by
  by_cases hl : l = []
  · subst hl; rfl
  · have h1 : normalizePhone l =
        '+' :: ausFix (dropLeadPlus (cleanPhone l)) := by
      unfold normalizePhone; rw [if_neg hl]
    have hclean : cleanPhone ('+' :: ausFix (dropLeadPlus (cleanPhone l))) =
        '+' :: ausFix (dropLeadPlus (cleanPhone l)) := by
      rw [cleanPhone]
      rw [List.filter_cons]
      have hplus : (! isPhoneSep '+') = true := by decide
      rw [if_pos hplus]
      have hrest : (ausFix (dropLeadPlus (cleanPhone l))).filter
          (fun c => ! isPhoneSep c) = ausFix (dropLeadPlus (cleanPhone l)) := by
        apply filter_of_all
        intro c hc
        have h2 : c ∈ cleanPhone l :=
          mem_dropLeadPlus (mem_ausFix hc)
        have h3 := (List.mem_filter.mp h2).2
        exact h3
      rw [hrest]
    have h2 : normalizePhone ('+' :: ausFix (dropLeadPlus (cleanPhone l))) =
        '+' :: ausFix (ausFix (dropLeadPlus (cleanPhone l))) := by
      unfold normalizePhone
      rw [if_neg (by simp)]
      rw [hclean]
      rfl
    rw [h1, h2, ausFix_idem h]

/-! # The hashing layer: digest shape, hex and Base64 renderings -/

theorem mem_wordBytes {b w : Nat} (h : b ∈ wordBytes w) : b < 256 := by
  simp only [wordBytes, List.mem_cons, List.not_mem_nil, or_false] at h
  rcases h with rfl | rfl | rfl | rfl <;> exact Nat.mod_lt _ (by norm_num)

theorem sha256Bytes_length (msg : List Nat) :
    (sha256Bytes msg).length = 32 := by
  simp [sha256Bytes, wordBytes]

theorem sha256Bytes_lt (msg : List Nat) : ∀ b ∈ sha256Bytes msg, b < 256 := by
  intro b hb
  unfold sha256Bytes at hb
  rcases List.mem_append.mp hb with hb | hb2
  rotate_left
  · exact mem_wordBytes hb2
  rcases List.mem_append.mp hb with hb | hb2
  rotate_left
  · exact mem_wordBytes hb2
  rcases List.mem_append.mp hb with hb | hb2
  rotate_left
  · exact mem_wordBytes hb2
  rcases List.mem_append.mp hb with hb | hb2
  rotate_left
  · exact mem_wordBytes hb2
  rcases List.mem_append.mp hb with hb | hb2
  rotate_left
  · exact mem_wordBytes hb2
  rcases List.mem_append.mp hb with hb | hb2
  rotate_left
  · exact mem_wordBytes hb2
  rcases List.mem_append.mp hb with hb | hb2
  · exact mem_wordBytes hb
  · exact mem_wordBytes hb2

theorem hexEncode_length (bs : List Nat) :
    (hexEncode bs).length = 2 * bs.length := by
  induction bs with
  | nil => rfl
  | cons b t ih =>
    simp only [hexEncode, List.length_cons, ih]
    omega

theorem hexDigitChar_mem :
    ∀ n < 16, hexDigitChar n ∈ "0123456789abcdef".data := by
  decide

theorem hexEncode_mem {bs : List Nat} (h : ∀ b ∈ bs, b < 256) :
    ∀ c ∈ hexEncode bs, c ∈ "0123456789abcdef".data := by
  induction bs with
  | nil => intro c hc; simp [hexEncode] at hc
  | cons b t ih =>
    intro c hc
    have hb := h b (List.mem_cons_self b t)
    rcases List.mem_cons.mp hc with rfl | hc2
    · exact hexDigitChar_mem _ (by omega)
    · rcases List.mem_cons.mp hc2 with rfl | hc3
      · exact hexDigitChar_mem _ (by omega)
      · exact ih (fun x hx => h x (List.mem_cons_of_mem b hx)) c hc3

theorem b64DigitChar_mem : ∀ n < 64, b64DigitChar n ∈
    "ABCDEFGHIJKLMNOPQRSTUVWXYZabcdefghijklmnopqrstuvwxyz0123456789+/=".data := by
  decide

theorem base64Encode_length (bs : List Nat) :
    (base64Encode bs).length = (bs.length + 2) / 3 * 4 := by
  match bs with
  | [] => rfl
  | [b1] => simp [base64Encode]
  | [b1, b2] => simp [base64Encode]
  | b1 :: b2 :: b3 :: t =>
    simp only [base64Encode, List.length_cons, base64Encode_length t]
    omega

theorem base64Encode_mem {bs : List Nat} (h : ∀ b ∈ bs, b < 256) :
    ∀ c ∈ base64Encode bs, c ∈
    "ABCDEFGHIJKLMNOPQRSTUVWXYZabcdefghijklmnopqrstuvwxyz0123456789+/=".data := by
  match bs with
  | [] => intro c hc; simp [base64Encode] at hc
  | [b1] =>
    intro c hc
    have hb1 := h b1 (by simp)
    simp only [base64Encode, List.mem_cons, List.not_mem_nil, or_false] at hc
    rcases hc with rfl | rfl | rfl | rfl
    · exact b64DigitChar_mem _ (by omega)
    · exact b64DigitChar_mem _ (by omega)
    · decide
    · decide
  | [b1, b2] =>
    intro c hc
    have hb1 := h b1 (by simp)
    have hb2 := h b2 (by simp)
    simp only [base64Encode, List.mem_cons, List.not_mem_nil, or_false] at hc
    rcases hc with rfl | rfl | rfl | rfl
    · exact b64DigitChar_mem _ (by omega)
    · exact b64DigitChar_mem _ (by omega)
    · exact b64DigitChar_mem _ (by omega)
    · decide
  | b1 :: b2 :: b3 :: t =>
    intro c hc
    have hb1 := h b1 (by simp)
    have hb2 := h b2 (by simp)
    have hb3 := h b3 (by simp)
    simp only [base64Encode, List.mem_cons] at hc
    rcases hc with rfl | rfl | rfl | rfl | hc2
    · exact b64DigitChar_mem _ (by omega)
    · exact b64DigitChar_mem _ (by omega)
    · exact b64DigitChar_mem _ (by omega)
    · exact b64DigitChar_mem _ (by omega)
    · refine base64Encode_mem (fun x hx => h x ?_) c hc2
      simp only [List.mem_cons]
      tauto

theorem hexVal_hexDigitChar : ∀ n < 16, hexVal (hexDigitChar n) = n := by
  decide

theorem hexDecode_hexEncode {bs : List Nat} (h : ∀ b ∈ bs, b < 256) :
    hexDecode (hexEncode bs) = bs := by
  induction bs with
  | nil => rfl
  | cons b t ih =>
    have hb := h b (List.mem_cons_self b t)
    have h1 : hexVal (hexDigitChar (b / 16)) = b / 16 :=
      hexVal_hexDigitChar _ (by omega)
    have h2 : hexVal (hexDigitChar (b % 16)) = b % 16 :=
      hexVal_hexDigitChar _ (by omega)
    simp only [hexEncode, hexDecode, h1, h2]
    rw [ih (fun x hx => h x (List.mem_cons_of_mem b hx))]
    have h3 : b / 16 * 16 + b % 16 = b := by omega
    rw [h3]

/-! # The batch processor: limit error, loop characterization -/

theorem splitChar_no_sep {sep : Char} {l : Str} (h : sep ∉ l) :
    splitChar sep l = [l] := by
  induction l with
  | nil => rfl
  | cons c t ih =>
    have hc : ¬ c = sep := fun he => h (by rw [he]; simp)
    have ht : sep ∉ t := fun he => h (List.mem_cons_of_mem c he)
    simp only [splitChar, if_neg hc, ih ht]

theorem splitChar_cons_sep (sep : Char) (t : Str) :
    splitChar sep (sep :: t) = [] :: splitChar sep t := by
  rw [splitChar, if_pos rfl]

theorem splitChar_cons_ne {sep c : Char} (h : ¬ c = sep) (t : Str) :
    splitChar sep (c :: t) =
      match splitChar sep t with
      | s :: rest => (c :: s) :: rest
      | [] => [[c]] := by
  rw [splitChar, if_neg h]

theorem splitChar_manyLines (n : Nat) :
    splitChar '\n' (manyLines n) = List.replicate n ['a'] ++ [[]] := by
  induction n with
  | zero => rfl
  | succ k ih =>
    have h1 : ¬ ('a' = '\n') := by decide
    have h2 : manyLines (k + 1) = 'a' :: '\n' :: manyLines k := rfl
    rw [h2, splitChar_cons_ne h1, splitChar_cons_sep, ih]
    simp [List.replicate_succ]

theorem batchLines_manyLines (n : Nat) :
    batchLines (manyLines n) = List.replicate n ['a'] := by
  unfold batchLines
  rw [splitChar_manyLines, List.map_append, List.map_replicate]
  have h1 : trimStr ['a'] = ['a'] := by decide
  have h2 : trimStr [] = [] := rfl
  rw [h1, List.filter_append]
  have h3 : (List.replicate n ['a']).filter (fun l => decide (l ≠ [])) =
      List.replicate n ['a'] := by
    apply filter_of_all
    intro a ha
    rw [List.eq_of_mem_replicate ha]
    decide
  rw [h3]
  simp [h2]

theorem processCSVTry_limit {text : Str}
    (h : 10000 < (batchLines text).length) :
    processCSVTry text =
      Except.error "File exceeds maximum record limit of 10000".data := by
  unfold processCSVTry
  rw [if_pos h]

theorem processCSV_limit {text : Str}
    (h : 10000 < (batchLines text).length) :
    processCSV text = Except.error
      ("Error processing CSV file: ".data ++
       "File exceeds maximum record limit of 10000".data) := by
  unfold processCSV
  rw [processCSVTry_limit h]

theorem foldl_csvStep (lines : List Str) :
    ∀ (r0 : List ProcessedRow) (k0 : Nat),
    lines.foldl csvStep (r0, k0) =
      (r0 ++ lines.filterMap rowOf, k0 + lines.countP isSkippedLine) := by
  induction lines with
  | nil => intro r0 k0; simp
  | cons l t ih =>
    intro r0 k0
    rw [List.foldl_cons]
    cases hl : processLine l with
    | empty =>
      have h0 : csvStep (r0, k0) l = (r0, k0) := by unfold csvStep; rw [hl]
      have h1 : rowOf l = none := by unfold rowOf; rw [hl]
      have h2 : isSkippedLine l = false := by simp [isSkippedLine, hl]
      rw [h0, ih r0 k0]
      simp [List.filterMap_cons, List.countP_cons, h1, h2]
    | skipped =>
      have h0 : csvStep (r0, k0) l = (r0, k0 + 1) := by unfold csvStep; rw [hl]
      have h1 : rowOf l = none := by unfold rowOf; rw [hl]
      have h2 : isSkippedLine l = true := by simp [isSkippedLine, hl]
      rw [h0, ih r0 (k0 + 1)]
      simp [List.filterMap_cons, List.countP_cons, h1, h2]
      omega
    | row r =>
      have h0 : csvStep (r0, k0) l = (r0 ++ [r], k0) := by
        unfold csvStep; rw [hl]
      have h1 : rowOf l = some r := by unfold rowOf; rw [hl]
      have h2 : isSkippedLine l = false := by simp [isSkippedLine, hl]
      rw [h0, ih (r0 ++ [r]) k0]
      simp [List.filterMap_cons, List.countP_cons, h1, h2]

theorem processCSV_ok {text : Str}
    (h : ¬ 10000 < (batchLines text).length) :
    processCSV text = Except.ok
      ⟨csvHeaders, (batchLines text).filterMap rowOf,
       (batchLines text).countP isSkippedLine⟩ := by
  unfold processCSV processCSVTry
  rw [if_neg (by simpa using h)]
  rw [foldl_csvStep (batchLines text) [] 0]
  simp

theorem processLine_empty_iff (l : Str) :
    processLine l = LineOutcome.empty ↔ preComma l = [] := by
  constructor
  · intro h
    by_contra hne
    unfold processLine at h
    rw [if_neg hne] at h
    split at h
    · split at h
      · exact LineOutcome.noConfusion h
      · exact LineOutcome.noConfusion h
    · exact LineOutcome.noConfusion h
  · intro h
    unfold processLine
    rw [if_pos h]

theorem rows_skip_count (lines : List Str) :
    (lines.filterMap rowOf).length + lines.countP isSkippedLine =
      (lines.filter (fun l => decide (preComma l ≠ []))).length := by
  induction lines with
  | nil => rfl
  | cons l t ih =>
    by_cases hp : preComma l = []
    · have he : processLine l = LineOutcome.empty :=
        (processLine_empty_iff l).mpr hp
      have h1 : rowOf l = none := by unfold rowOf; rw [he]
      have h2 : isSkippedLine l = false := by simp [isSkippedLine, he]
      have h3 : (fun l => decide (preComma l ≠ [])) l = false := by
        simp [hp]
      rw [List.filterMap_cons_none h1, List.filter_cons_of_neg (by simp [hp])]
      rw [List.countP_cons, h2]
      simpa using ih
    · have h3 : (fun l => decide (preComma l ≠ [])) l = true := by
        simp [hp]
      rw [List.filter_cons_of_pos (by simp [hp])]
      cases hl : processLine l with
      | empty => exact absurd ((processLine_empty_iff l).mp hl) hp
      | skipped =>
        have h1 : rowOf l = none := by unfold rowOf; rw [hl]
        have h2 : isSkippedLine l = true := by simp [isSkippedLine, hl]
        rw [List.filterMap_cons_none h1, List.countP_cons, h2]
        rw [if_pos rfl]
        simp only [List.length_cons]
        omega
      | row r =>
        have h1 : rowOf l = some r := by unfold rowOf; rw [hl]
        have h2 : isSkippedLine l = false := by simp [isSkippedLine, hl]
        rw [List.filterMap_cons_some h1, List.countP_cons, h2]
        rw [if_neg (by decide)]
        simp only [List.length_cons]
        omega

/-! # Claim theorems -/

/-- C2: for every batch input whose count of non-blank trimmed lines exceeds
10000, processCSV raises an error whose message contains the literal string
10000, and returns no ProcessedData for that invocation. -/
theorem claim_C2 (text : Str) (h : 10000 < (batchLines text).length) :
    ∃ msg pre post, processCSV text = Except.error msg ∧
      msg = pre ++ "10000".data ++ post := by
  refine ⟨_, "Error processing CSV file: File exceeds maximum record limit of ".data,
    [], processCSV_limit h, ?_⟩
  decide

/-- Witness for C2 at a concrete 10001-line input. -/
theorem claim_C2_witness :
    ∃ msg pre post, processCSV (manyLines 10001) = Except.error msg ∧
      msg = pre ++ "10000".data ++ post :=
  claim_C2 (manyLines 10001)
    (by rw [batchLines_manyLines, List.length_replicate]; omega)

/-- C3 counterexample: at a concrete 10001-line input the error that reaches
the caller does carry the generic prefix, contradicting the claim that the
line-limit error is not wrapped. -/
theorem claim_C3_counterexample :
    processCSV (manyLines 10001) = Except.error
      "Error processing CSV file: File exceeds maximum record limit of 10000".data ∧
    List.isPrefixOf "Error processing CSV file: ".data
      "Error processing CSV file: File exceeds maximum record limit of 10000".data
      = true := by
  constructor
  · rw [processCSV_limit
      (by rw [batchLines_manyLines, List.length_replicate]; omega)]
    exact congrArg Except.error (by decide)
  · decide

/-- C3 amended: every error raised inside processCSV, including the explicit
line-limit error, is wrapped with the prefix before reaching the caller; for
an over-limit input the caller receives the prefixed line-limit message. -/
theorem claim_C3_amended (text : Str)
    (h : 10000 < (batchLines text).length) :
    processCSV text = Except.error
      ("Error processing CSV file: ".data ++
       "File exceeds maximum record limit of 10000".data) :=
  processCSV_limit h

/-- Witness for the amended C3 at a concrete 10001-line input. -/
theorem claim_C3_witness :
    processCSV (manyLines 10001) = Except.error
      ("Error processing CSV file: ".data ++
       "File exceeds maximum record limit of 10000".data) :=
  claim_C3_amended (manyLines 10001)
    (by rw [batchLines_manyLines, List.length_replicate]; omega)

/-- C5 counterexample: normalizePhone is not idempotent on an input whose
digits begin with 6100 — the Australian fix-up exposes a new 610 head that a
second application removes again. -/
theorem claim_C5_counterexample :
    normalizePhone (normalizePhone "6100123456".data) ≠
      normalizePhone "6100123456".data := by
  decide

/-- C5 amended: normalizeEmail with default options is idempotent on every
string; normalizePhone is idempotent on every input except those whose
cleaned, plus-stripped form begins with 6100. -/
theorem claim_C5_amended :
    (∀ l : Str,
      normalizeEmail defaultEmailOptions (normalizeEmail defaultEmailOptions l)
        = normalizeEmail defaultEmailOptions l) ∧
    (∀ l : Str, (dropLeadPlus (cleanPhone l)).take 4 ≠
        '6' :: '1' :: '0' :: '0' :: [] →
      normalizePhone (normalizePhone l) = normalizePhone l) :=
  ⟨normalizeEmail_idem, fun _ h => normalizePhone_idem h⟩

/-- Witness for the amended C5 at a concrete formatted phone number. -/
theorem claim_C5_witness :
    normalizePhone (normalizePhone "+1 (234) 567-8901".data) =
      normalizePhone "+1 (234) 567-8901".data :=
  claim_C5_amended.2 "+1 (234) 567-8901".data (by decide)

/-- C8: the SHA-256 hex hash of a non-empty string is 64 lowercase hex
characters and the Base64 hash is a 44-character string over the Base64
alphabet that encodes the raw 32 digest bytes; both yield the empty string
on empty input.  Determinism is intrinsic: both are pure functions. -/
theorem claim_C8 (s : Str) :
    (s = [] → generateSha256Hash s = [] ∧ generateBase64Hash s = []) ∧
    (s ≠ [] →
      (generateSha256Hash s).length = 64 ∧
      (∀ c ∈ generateSha256Hash s, c ∈ "0123456789abcdef".data) ∧
      (generateBase64Hash s).length = 44 ∧
      generateBase64Hash s ≠ [] ∧
      (∀ c ∈ generateBase64Hash s, c ∈
        "ABCDEFGHIJKLMNOPQRSTUVWXYZabcdefghijklmnopqrstuvwxyz0123456789+/=".data) ∧
      (sha256Bytes (utf8Bytes s)).length = 32 ∧
      generateBase64Hash s = base64Encode (sha256Bytes (utf8Bytes s))) := by
  constructor
  · intro h; subst h; exact ⟨rfl, rfl⟩
  · intro h
    have hsha : generateSha256Hash s = hexEncode (sha256Bytes (utf8Bytes s)) := by
      unfold generateSha256Hash; rw [if_neg h]
    have hb64 : generateBase64Hash s =
        base64Encode (sha256Bytes (utf8Bytes s)) := by
      unfold generateBase64Hash; rw [if_neg h]
    have hlen : (generateBase64Hash s).length = 44 := by
      rw [hb64, base64Encode_length, sha256Bytes_length]
    refine ⟨?_, ?_, hlen, ?_, ?_, sha256Bytes_length _, hb64⟩
    · rw [hsha, hexEncode_length, sha256Bytes_length]
    · rw [hsha]; exact hexEncode_mem (sha256Bytes_lt _)
    · intro he
      rw [he] at hlen
      simp at hlen
    · rw [hb64]; exact base64Encode_mem (sha256Bytes_lt _)

/-- Witness for C8 at a concrete non-empty input. -/
theorem claim_C8_witness : (generateSha256Hash "a".data).length = 64 :=
  ((claim_C8 "a".data).2 (by decide)).1

/-- C10: the crypto-js based hash utilities and the node-crypto based inline
phone hashing agree on every non-empty input, and the Base64 hash equals the
Base64 encoding of the bytes whose hex representation is the hex hash. -/
theorem claim_C10 (s : Str) (h : s ≠ []) :
    (generatePhoneHashes s).sha256Hash = generateSha256Hash s ∧
    (generatePhoneHashes s).base64Hash = generateBase64Hash s ∧
    generateBase64Hash s = base64Encode (hexDecode (generateSha256Hash s)) := by
  have hsha : generateSha256Hash s = hexEncode (sha256Bytes (utf8Bytes s)) := by
    unfold generateSha256Hash; rw [if_neg h]
  have hb64 : generateBase64Hash s =
      base64Encode (sha256Bytes (utf8Bytes s)) := by
    unfold generateBase64Hash; rw [if_neg h]
  have hrt : hexDecode (hexEncode (sha256Bytes (utf8Bytes s))) =
      sha256Bytes (utf8Bytes s) := hexDecode_hexEncode (sha256Bytes_lt _)
  refine ⟨by rw [hsha]; rfl, ?_, ?_⟩
  · rw [hb64]
    unfold generatePhoneHashes
    rw [hrt]
  · rw [hb64, hsha, hrt]

/-- Witness for C10 at a concrete non-empty input. -/
theorem claim_C10_witness :
    (generatePhoneHashes "+12345678901".data).base64Hash =
      generateBase64Hash "+12345678901".data :=
  (claim_C10 "+12345678901".data (by decide)).2.1

/-- C7: within the line limit, processCSV succeeds with the four fixed
headers, rows in input order (a filterMap over the non-blank lines), and
rows plus skipped rows accounting for exactly the lines whose text before
the first comma is non-empty; when every line has non-empty pre-comma text
the sum equals the non-blank line count.  Lines with empty pre-comma text
are skipped silently, counted by neither side. -/
theorem claim_C7 (text : Str) (h : (batchLines text).length ≤ 10000) :
    ∃ d, processCSV text = Except.ok d ∧
      d.headers =
        ["Input".data, "Normalized".data, "SHA256".data, "Base64".data] ∧
      d.rows = (batchLines text).filterMap rowOf ∧
      d.rows.length + d.skippedRows =
        ((batchLines text).filter
          (fun l => decide (preComma l ≠ []))).length ∧
      ((∀ l ∈ batchLines text, preComma l ≠ []) →
        d.rows.length + d.skippedRows = (batchLines text).length) := by
  refine ⟨_, processCSV_ok (by omega), rfl, rfl, rows_skip_count _, ?_⟩
  intro hall
  rw [rows_skip_count (batchLines text)]
  have hfa : (batchLines text).filter (fun l => decide (preComma l ≠ [])) =
      batchLines text := by
    apply filter_of_all
    intro l hl
    simpa using hall l hl
  rw [hfa]

/-- Witness for C7 at a concrete two-line input. -/
theorem claim_C7_witness :
    ∃ d, processCSV "a@b.co\n123".data = Except.ok d ∧
      d.headers =
        ["Input".data, "Normalized".data, "SHA256".data, "Base64".data] ∧
      d.rows = (batchLines "a@b.co\n123".data).filterMap rowOf ∧
      d.rows.length + d.skippedRows =
        ((batchLines "a@b.co\n123".data).filter
          (fun l => decide (preComma l ≠ []))).length ∧
      ((∀ l ∈ batchLines "a@b.co\n123".data, preComma l ≠ []) →
        d.rows.length + d.skippedRows =
          (batchLines "a@b.co\n123".data).length) :=
  claim_C7 "a@b.co\n123".data (by decide)

/-- C1 counterexample: the batch path feeds a phone-classified line to the
section 4.2 normalizePhone, so the single line 1234567890 yields the
normalized value +1234567890, not the +11234567890 the claim requires. -/
theorem claim_C1_counterexample :
    processCSV "1234567890".data = Except.ok
      ⟨csvHeaders,
       [⟨"1234567890".data, "+1234567890".data,
         generateSha256Hash "+1234567890".data,
         generateBase64Hash "+1234567890".data⟩], 0⟩ ∧
    "+1234567890".data ≠ "+11234567890".data := by
  constructor
  · have hline : processLine "1234567890".data = LineOutcome.row
        ⟨"1234567890".data, "+1234567890".data,
         generateSha256Hash "+1234567890".data,
         generateBase64Hash "+1234567890".data⟩ := by
      unfold processLine
      rw [if_neg (by decide)]
      have hp : preComma "1234567890".data = "1234567890".data := by decide
      rw [hp]
      have hn : normalizedOf "1234567890".data =
          some "+1234567890".data := by decide
      simp only [hn]
      rw [if_neg (by decide)]
    have hrow : rowOf "1234567890".data = some
        ⟨"1234567890".data, "+1234567890".data,
         generateSha256Hash "+1234567890".data,
         generateBase64Hash "+1234567890".data⟩ := by
      unfold rowOf; rw [hline]
    have hskip : isSkippedLine "1234567890".data = false := by
      simp [isSkippedLine, hline]
    have hb : batchLines "1234567890".data = ["1234567890".data] := by decide
    rw [@processCSV_ok "1234567890".data (by decide), hb]
    rw [List.filterMap_cons_some hrow]
    simp [List.countP_cons, hskip]
  · decide

/-- C1 amended: processCSV normalizes every phone-classified line with the
section 4.2 normalizePhone — no digit-count range check, no +1 insertion —
and emits one row carrying that value; the 10-to-15-digit variant rule
exists only in the test suite mock.  The single line 1234567890 yields one
row with normalized value +1234567890. -/
theorem claim_C1_amended (v : Str) (h1 : '\n' ∉ v) (h2 : trimStr v = v)
    (h3 : v ≠ []) (h4 : ',' ∉ v)
    (h5 : detectValueType v = ValueType.phone) :
    ∃ d, processCSV v = Except.ok d ∧
      d.rows.map (fun r => r.original) = [v] ∧
      d.rows.map (fun r => r.normalized) = [normalizePhone v] ∧
      d.skippedRows = 0 := by
  have hb : batchLines v = [v] := by
    unfold batchLines
    rw [splitChar_no_sep h1]
    simp only [List.map_cons, List.map_nil, h2, List.filter]
    simp [h3]
  have hpre : preComma v = v := by
    apply takeWhile_of_all
    intro c hc
    simp only [decide_eq_true_eq]
    intro he
    exact h4 (he ▸ hc)
  have hnorm : normalizePhone v =
      '+' :: ausFix (dropLeadPlus (cleanPhone v)) := by
    unfold normalizePhone; rw [if_neg h3]
  have hnne : ¬ (normalizePhone v = []) := by rw [hnorm]; simp
  have hline : processLine v = LineOutcome.row
      ⟨v, normalizePhone v, generateSha256Hash (normalizePhone v),
       generateBase64Hash (normalizePhone v)⟩ := by
    unfold processLine
    rw [hpre, if_neg h3]
    have hn : normalizedOf v = some (normalizePhone v) := by
      unfold normalizedOf
      rw [h5]
    simp only [hn]
    rw [if_neg hnne]
  have hrow : rowOf v = some
      ⟨v, normalizePhone v, generateSha256Hash (normalizePhone v),
       generateBase64Hash (normalizePhone v)⟩ := by
    unfold rowOf; rw [hline]
  have hskip : isSkippedLine v = false := by simp [isSkippedLine, hline]
  have hlen : ¬ 10000 < (batchLines v).length := by rw [hb]; simp
  refine ⟨_, processCSV_ok hlen, ?_, ?_, ?_⟩
  · rw [hb, List.filterMap_cons_some hrow]
    simp
  · rw [hb, List.filterMap_cons_some hrow]
    simp
  · rw [hb]
    simp [List.countP_cons, hskip]

/-- Witness for the amended C1 at the line 123, whose three digits are
outside the 10-to-15 range the original claim required. -/
theorem claim_C1_witness :
    ∃ d, processCSV "123".data = Except.ok d ∧
      d.rows.map (fun r => r.original) = ["123".data] ∧
      d.rows.map (fun r => r.normalized) = [normalizePhone "123".data] ∧
      d.skippedRows = 0 :=
  claim_C1_amended "123".data (by decide) (by decide) (by decide)
    (by decide) (by decide)

/-- C4: with default options the dot-removal and plus-truncation apply to
the local part of every address regardless of domain, the domain staying
untouched; the two reference examples evaluate as stated. -/
theorem claim_C4 :
    (∀ (l a b : Str), lowerStr (stripWs l) = a ++ '@' :: b → '@' ∉ a →
      '@' ∉ b → b ≠ [] →
      normalizeEmail defaultEmailOptions l =
        (a.filter (fun c => decide (c ≠ '.'))).takeWhile
          (fun c => decide (c ≠ '+')) ++ '@' :: b) ∧
    normalizeEmail defaultEmailOptions "Test.User@Example.com".data =
      "testuser@example.com".data ∧
    normalizeEmail defaultEmailOptions "test.user+label@example.com".data =
      "testuser@example.com".data := by
  refine ⟨?_, by decide, by decide⟩
  intro l a b hm ha hb hbne
  rw [normalizeEmail_eq l, hm]
  apply emailStep_default_app
  · intro c hc
    simp only [decide_eq_true_eq]
    intro he
    exact ha (he ▸ hc)
  · intro c hc
    simp only [decide_eq_true_eq]
    intro he
    exact hb (he ▸ hc)
  · exact hbne

/-- Witness for C4 at a concrete mixed-case address with a dotted domain. -/
theorem claim_C4_witness :
    normalizeEmail defaultEmailOptions "User.Name@Sub.Example.org".data =
      ("user.name".data.filter (fun c => decide (c ≠ '.'))).takeWhile
        (fun c => decide (c ≠ '+')) ++ '@' :: "sub.example.org".data :=
  claim_C4.1 "User.Name@Sub.Example.org".data "user.name".data
    "sub.example.org".data (by decide) (by decide) (by decide) (by decide)

/-- C6 counterexample: for the input a@b@c everything from the second
commercial at on is dropped, so the text after the first at does not appear
unchanged in the output. -/
theorem claim_C6_counterexample :
    normalizeEmail defaultEmailOptions "a@b@c".data = "a@b".data ∧
    "a@b".data ≠ "a@b@c".data ∧
    List.isSuffixOf "@b@c".data
      (normalizeEmail defaultEmailOptions "a@b@c".data) = false := by
  refine ⟨by decide, by decide, by decide⟩

/-- C6 amended: the string is split at its first commercial at, but the
domain is only the text up to a possible second at (JavaScript split
element 1); when that domain is non-empty the rest is dropped, and when it
is empty the string is returned unmodified beyond the whitespace and
lowercase steps; an input without an at is returned unmodified beyond those
steps. -/
theorem claim_C6_amended :
    (∀ l : Str, '@' ∉ lowerStr (stripWs l) →
      normalizeEmail defaultEmailOptions l = lowerStr (stripWs l)) ∧
    (∀ (l a r : Str), lowerStr (stripWs l) = a ++ '@' :: r → '@' ∉ a →
      normalizeEmail defaultEmailOptions l =
        if r.takeWhile (fun c => decide (c ≠ '@')) = [] then a ++ '@' :: r
        else (a.filter (fun c => decide (c ≠ '.'))).takeWhile
          (fun c => decide (c ≠ '+')) ++ '@' ::
          r.takeWhile (fun c => decide (c ≠ '@'))) := by
  constructor
  · intro l h
    rw [normalizeEmail_eq l]
    have hd : (lowerStr (stripWs l)).dropWhile
        (fun c => decide (c ≠ '@')) = [] := by
      apply dropWhile_of_all
      intro c hc
      simp only [decide_eq_true_eq]
      intro he
      exact h (he ▸ hc)
    unfold emailStep
    simp only [hd]
  · intro l a r hm ha
    rw [normalizeEmail_eq l, hm]
    have ha2 : ∀ c ∈ a, (fun c => decide (c ≠ '@')) c = true := by
      intro c hc
      simp only [decide_eq_true_eq]
      intro he
      exact ha (he ▸ hc)
    have hat : (fun c => decide (c ≠ '@')) '@' = false := by simp
    have hd := @dropWhile_append_sat Char (fun c => decide (c ≠ '@'))
      a r '@' ha2 hat
    have ht := @takeWhile_append_sat Char (fun c => decide (c ≠ '@'))
      a r '@' ha2 hat
    unfold emailStep
    simp only [hd]
    by_cases hdom : r.takeWhile (fun c => decide (c ≠ '@')) = []
    · rw [if_pos hdom, if_pos hdom]
    · rw [if_neg hdom, if_neg hdom, ht]
      rfl

/-- Witness for the amended C6 at an input without a commercial at. -/
theorem claim_C6_witness :
    normalizeEmail defaultEmailOptions "No.At-Here".data =
      lowerStr (stripWs "No.At-Here".data) :=
  claim_C6_amended.1 "No.At-Here".data (by decide)

/-- C9: the single-value email processor leaves the whole state unchanged
on empty input, stores the validation message and keeps the prior result on
invalid input, and clears the error and stores the normalized-plus-hashes
result on valid input. -/
theorem claim_C9 (s : EmailProcessorState) :
    (s.email = [] → processEmail s = s) ∧
    (s.email ≠ [] → (validateEmail s.email).isValid = false →
      processEmail s = ⟨s.email,
        (validateEmail s.email).error.getD "Invalid email address".data,
        s.result⟩) ∧
    (s.email ≠ [] → (validateEmail s.email).isValid = true →
      processEmail s = ⟨s.email, [],
        generateEmailHashes
          (normalizeEmail defaultEmailOptions s.email)⟩) := by
  refine ⟨?_, ?_, ?_⟩
  · intro h
    unfold processEmail
    rw [if_pos h]
  · intro h hv
    unfold processEmail
    rw [if_neg h, if_neg (by rw [hv]; simp)]
  · intro h hv
    unfold processEmail
    rw [if_neg h, if_pos hv]

/-- Witness for C9 covering the three transitions at concrete states. -/
theorem claim_C9_witness :
    processEmail ⟨[], "e".data, ⟨"x".data, [], []⟩⟩ =
      ⟨[], "e".data, ⟨"x".data, [], []⟩⟩ ∧
    processEmail ⟨"bad".data, [], ⟨"x".data, [], []⟩⟩ =
      ⟨"bad".data,
       (validateEmail "bad".data).error.getD "Invalid email address".data,
       ⟨"x".data, [], []⟩⟩ ∧
    processEmail ⟨"a@b.co".data, "old".data, ⟨"x".data, [], []⟩⟩ =
      ⟨"a@b.co".data, [],
       generateEmailHashes
         (normalizeEmail defaultEmailOptions "a@b.co".data)⟩ :=
  ⟨(claim_C9 ⟨[], "e".data, ⟨"x".data, [], []⟩⟩).1 (by decide),
   (claim_C9 ⟨"bad".data, [], ⟨"x".data, [], []⟩⟩).2.1
     (by decide) (by decide),
   (claim_C9 ⟨"a@b.co".data, "old".data, ⟨"x".data, [], []⟩⟩).2.2
     (by decide) (by decide)⟩

end DiiOp
